import Mathlib

set_option maxHeartbeats 1000000

/-!
Shallow embedding of ncclient's `xml_.py` module.

Python strings are modelled as `List Char`; an ElementTree element is modelled
by the nested inductive `Element`; the mutable process-wide namespace table is
modelled by explicit state passing over an association list.  The external
ElementTree operations that `xml_.py` delegates to (`ET.tostring`,
`ET.fromstring`, `ET.iterparse`, `ET.Element`, `ET.SubElement` and the
`_namespace_map` fallback) are modelled concretely below as `ET_tostring`,
`ET_fromstring`, and the dictionary primitives, following ElementTree's
documented serialisation format (attributes in lexical order, `&` `<` `>`
escaped in character data, `&` `<` `>` `"` escaped in attribute values,
self-closing `<tag />` for childless textless elements).
-/

/-- Model of `xml.etree.ElementTree.Element`: tag name, attribute mapping
(association list), text, child sequence and tail text.  Python's `None` text
is identified with the empty string, matching ElementTree's truthiness test
`if node.text`. -/
inductive Element where
  | mk (tag : List Char) (attrib : List (List Char × List Char)) (text : List Char)
      (children : List Element) (tail : List Char)

/-- Tag accessor. -/
def Element.tag : Element → List Char
  | .mk t _ _ _ _ => t

/-- Attribute mapping accessor. -/
def Element.attrib : Element → List (List Char × List Char)
  | .mk _ a _ _ _ => a

/-- Text accessor. -/
def Element.text : Element → List Char
  | .mk _ _ x _ _ => x

/-- Children accessor. -/
def Element.children : Element → List Element
  | .mk _ _ _ c _ => c

/-- Tail accessor. -/
def Element.tail : Element → List Char
  | .mk _ _ _ _ l => l

/-- Replace the tail of an element (used when the parser attaches trailing
character data to the preceding sibling, as ElementTree's tree builder does). -/
def Element.withTail : Element → List Char → Element
  | .mk t a x c _, l => .mk t a x c l

/-- Errors surfaced by the module: `parseError` models the underlying
library's `ParseError` (propagated unchanged by `to_ele`), and `xmlError`
models the module's own `XMLError` carrying its message string. -/
inductive PyError where
  | parseError
  | xmlError (msg : List Char)
deriving DecidableEq

/-- Input of the duck-typed functions `to_ele` and `validated_element`:
either an already-parsed `Element` or a raw XML string. -/
inductive XVal where
  | ele (e : Element)
  | str (s : List Char)

/-- Left brace character (written numerically; it is literal text, not code). -/
def lbrace : Char := Char.ofNat 123

/-- Right brace character. -/
def rbrace : Char := Char.ofNat 125

/-- Base NETCONF namespace, `BASE_NS_1_0` in the source. -/
def BASE_NS_1_0 : List Char := "urn:ietf:params:xml:ns:netconf:base:1.0".data

/-- Model of `qualify = lambda tag, ns=BASE_NS_1_0: tag if ns is None else
'{%s}%s' % (ns, tag)`.  `none` models Python's `None` sentinel. -/
def qualify (tag : List Char) (ns : Option (List Char) := some BASE_NS_1_0) : List Char :=
  match ns with
  | none => tag
  | some n => lbrace :: n ++ rbrace :: tag

/-- Dictionary assignment `d[k] = v` on an association-list model of a Python
dict: overwrite the value of an existing key in place, otherwise append. -/
def dictAssign (d : List (List Char × List Char)) (k v : List Char) :
    List (List Char × List Char) :=
  if (d.map Prod.fst).contains k then
    d.map (fun p => if p.1 = k then (k, v) else p)
  else
    d ++ [(k, v)]

/-- Model of the source's fallback `register_namespace(prefix, uri)`, which
performs `ElementTree._namespace_map[uri] = prefix` on the process-wide
namespace table (modelled as explicit state). -/
def register_namespace (table : List (List Char × List Char)) (pre uri : List Char) :
    List (List Char × List Char) :=
  dictAssign table uri pre

/-- Dictionary update `d.update(u)` (the keyword-argument merge used by
`ET.Element(tag, attrib, **extra)`): entries of `u` are assigned left to
right, overriding `d` on key collision. -/
def dictMerge (d u : List (List Char × List Char)) : List (List Char × List Char) :=
  u.foldl (fun acc p => dictAssign acc p.1 p.2) d

/-- Model of `new_ele(tag, attrs={}, **extra) = ET.Element(tag, attrs, **extra)`:
a fresh element whose attribute mapping merges `attrs` and `extra`,
with `extra` winning on collision. -/
def new_ele (tag : List Char) (attrs extra : List (List Char × List Char)) : Element :=
  .mk tag (dictMerge attrs extra) [] [] []

/-- Model of `sub_ele(parent, tag, attrs={}, **extra) = ET.SubElement(...)`:
returns the created child together with the updated parent (the Python
original mutates `parent` in place and returns the child). -/
def sub_ele (parent : Element) (tag : List Char) (attrs extra : List (List Char × List Char)) :
    Element × Element :=
  (new_ele tag attrs extra,
   .mk parent.tag parent.attrib parent.text (parent.children ++ [new_ele tag attrs extra])
     parent.tail)

/-- Characters allowed in a modelled XML name (tag or attribute name):
anything except whitespace and the markup delimiters. -/
def isNameC (c : Char) : Bool :=
  !(c == ' ' || c == '\t' || c == '\n' || c == '\r' || c == '<' || c == '>' ||
    c == '&' || c == '"' || c == Char.ofNat 39 || c == '/' || c == '=' || c == '?' ||
    c == '!')

/-- Escape one character of character data (`q = false`) or of an attribute
value (`q = true`), following ElementTree's `_escape_cdata` / `_escape_attrib`. -/
def escChar (q : Bool) (c : Char) : List Char :=
  if c == '&' then "&amp;".data
  else if c == '<' then "&lt;".data
  else if c == '>' then "&gt;".data
  else if q && c == '"' then "&quot;".data
  else [c]

/-- Character-data escaping. -/
def escCdata (l : List Char) : List Char := l.flatMap (escChar false)

/-- Attribute-value escaping. -/
def escAttrib (l : List Char) : List Char := l.flatMap (escChar true)

/-- Lexicographic comparison of key strings, used to model the lexical
attribute ordering (`items.sort()`) of ElementTree's serializer. -/
def lexLe : List Char → List Char → Bool
  | [], _ => true
  | _ :: _, [] => false
  | a :: as, b :: bs => if a < b then true else if a = b then lexLe as bs else false

/-- Insertion into a key-sorted association list. -/
def insortKey (p : List Char × List Char) :
    List (List Char × List Char) → List (List Char × List Char)
  | [] => [p]
  | q :: t => if lexLe p.1 q.1 then p :: q :: t else q :: insortKey p t

/-- Sort an attribute list by key (insertion sort); models `items.sort()`. -/
def sortAttrs (l : List (List Char × List Char)) : List (List Char × List Char) :=
  l.foldr insortKey []

/-- Serialisation of one attribute as ` name="escaped-value"`. -/
def serAttr (p : List Char × List Char) : List Char :=
  ' ' :: (p.1 ++ '=' :: '"' :: (escAttrib p.2 ++ ['"']))

/-- Serialisation of an attribute list. -/
def serAttrs (l : List (List Char × List Char)) : List Char := l.flatMap serAttr

mutual

/-- Model of ElementTree's `_write` on one element: start tag with lexically
sorted attributes, then either ` />` for a childless textless element or the
escaped text, the serialised children and the end tag; followed by the
escaped tail. -/
def serializeEle : Element → List Char
  | .mk t a x c tl =>
    (if x.isEmpty && c.isEmpty then
      '<' :: (t ++ (serAttrs (sortAttrs a) ++ (' ' :: '/' :: '>' :: [])))
     else
      '<' :: (t ++ (serAttrs (sortAttrs a) ++
        ('>' :: (escCdata x ++ (serList c ++ ('<' :: '/' :: (t ++ ['>']))))))))
    ++ escCdata tl

/-- Serialisation of a list of sibling elements. -/
def serList : List Element → List Char
  | [] => []
  | e :: es => serializeEle e ++ serList es

end

/-- Everything of `serializeEle` except the trailing escaped tail text. -/
def serCore : Element → List Char
  | .mk t a x c _ =>
    if x.isEmpty && c.isEmpty then
      '<' :: (t ++ (serAttrs (sortAttrs a) ++ (' ' :: '/' :: '>' :: [])))
    else
      '<' :: (t ++ (serAttrs (sortAttrs a) ++
        ('>' :: (escCdata x ++ (serList c ++ ('<' :: '/' :: (t ++ ['>'])))))))

/-- Model of the external serializer `ET.tostring(ele, encoding)`.  The
declaration handling of the wrapper is the subject of `to_xml`; the modelled
serializer emits the document body only. -/
def ET_tostring (ele : Element) (_encoding : List Char) : List Char :=
  serializeEle ele

/-- XML declaration produced by the source format string
`'<?xml version="1.0" encoding="%s"?>'`. -/
def xmlDeclFmt (encoding : List Char) : List Char :=
  "<?xml version=\"1.0\" encoding=\"".data ++ encoding ++ "\"?>".data

/-- The declaration-or-keep step of `to_xml`: mirrors
`xml if xml.startswith('<?xml') else '<?xml version="1.0" encoding="%s"?>%s' % (encoding, xml)`. -/
def declOrKeep (encoding xml : List Char) : List Char :=
  if "<?xml".data.isPrefixOf xml then xml else xmlDeclFmt encoding ++ xml

/-- Model of `to_xml(ele, encoding="UTF-8")`. -/
def to_xml (ele : Element) (encoding : List Char := "UTF-8".data) : List Char :=
  declOrKeep encoding (ET_tostring ele encoding)

/-- Entity unescaping performed by the modelled parser. -/
def unescape : List Char → List Char
  | [] => []
  | c :: r =>
    if c = '&' then
      if "amp;".data.isPrefixOf r then '&' :: unescape (r.drop 4)
      else if "lt;".data.isPrefixOf r then '<' :: unescape (r.drop 3)
      else if "gt;".data.isPrefixOf r then '>' :: unescape (r.drop 3)
      else if "quot;".data.isPrefixOf r then '"' :: unescape (r.drop 5)
      else '&' :: unescape r
    else c :: unescape r
termination_by l => l.length
decreasing_by all_goals (simp [List.length_drop]; try omega)

/-- Parse a run of attributes, each of the form ` name="value"`, stopping in
front of ` />` or `>`.  The fuel argument bounds the number of attributes. -/
def parseAttrs : Nat → List Char → Option (List (List Char × List Char) × List Char)
  | 0, _ => none
  | _ + 1, [] => some ([], [])
  | fuel + 1, ' ' :: r =>
    let name := r.takeWhile isNameC
    if name.isEmpty then some ([], ' ' :: r)
    else
      match r.dropWhile isNameC with
      | '=' :: '"' :: r2 =>
        let raw := r2.takeWhile (fun c => !(c == '"'))
        match r2.dropWhile (fun c => !(c == '"')) with
        | '"' :: r4 =>
          match parseAttrs fuel r4 with
          | some (rest, r5) => some ((name, unescape raw) :: rest, r5)
          | none => none
        | _ => none
      | _ => none
  | _ + 1, s => some ([], s)

mutual

/-- Recursive-descent parser for one element, modelling the external
`ET.fromstring`/expat element parsing on the grammar the modelled serializer
emits.  Returns the element (with empty tail; tails are attached by the
enclosing content loop) and the unconsumed remainder. -/
def parseElement : Nat → List Char → Option (Element × List Char)
  | 0, _ => none
  | fuel + 1, s =>
    match s with
    | '<' :: r0 =>
      let name := r0.takeWhile isNameC
      if name.isEmpty then none
      else
        let r1 := r0.dropWhile isNameC
        match parseAttrs (r1.length + 1) r1 with
        | none => none
        | some (attrs, r2) =>
          match r2 with
          | ' ' :: '/' :: '>' :: r3 => some (.mk name attrs [] [] [], r3)
          | '/' :: '>' :: r3 => some (.mk name attrs [] [] [], r3)
          | '>' :: r3 =>
            let text := unescape (r3.takeWhile (fun c => !(c == '<')))
            match parseChildren fuel (r3.dropWhile (fun c => !(c == '<'))) with
            | none => none
            | some (children, r5) =>
              match r5 with
              | '<' :: '/' :: r6 =>
                let cname := r6.takeWhile isNameC
                if cname = name then
                  match (r6.dropWhile isNameC).dropWhile (fun c =>
                      c == ' ' || c == '\t' || c == '\n' || c == '\r') with
                  | '>' :: r8 => some (.mk name attrs text children [], r8)
                  | _ => none
                else none
              | _ => none
          | _ => none
    | _ => none

/-- Content loop: parse sibling elements, attaching the character data that
follows each one as its tail, until an end tag `</` is in front. -/
def parseChildren : Nat → List Char → Option (List Element × List Char)
  | 0, _ => none
  | fuel + 1, s =>
    match s with
    | '<' :: '/' :: r => some ([], '<' :: '/' :: r)
    | '<' :: r =>
      match parseElement fuel ('<' :: r) with
      | none => none
      | some (c, r1) =>
        let tl := unescape (r1.takeWhile (fun x => !(x == '<')))
        match parseChildren fuel (r1.dropWhile (fun x => !(x == '<'))) with
        | none => none
        | some (cs, r3) => some (c.withTail tl :: cs, r3)
    | _ => none

end

/-- Drop characters up to and including the first `?>` (the end of an XML
declaration or processing instruction). -/
def dropPI : List Char → List Char
  | [] => []
  | '?' :: '>' :: r => r
  | _ :: r => dropPI r

/-- Skip a leading `<?...?>` declaration if present. -/
def skipDecl (s : List Char) : List Char :=
  match s with
  | '<' :: '?' :: r => dropPI r
  | _ => s

/-- Model of the external `ET.fromstring`: skip a declaration, parse the root
element, and attach any trailing character data as the root's tail. -/
def ET_fromstring (s : List Char) : Except PyError Element :=
  let s1 := skipDecl s
  match parseElement (s1.length + 1) s1 with
  | some (e, rest) => .ok (e.withTail (unescape (rest.takeWhile (fun c => !(c == '<')))))
  | none => .error .parseError

/-- Model of `to_ele(x) = x if iselement(x) else ET.fromstring(x)`. -/
def to_ele : XVal → Except PyError Element
  | .ele e => .ok e
  | .str s => ET_fromstring s

/-- Model of `parse_root(raw)`: stream events and return the qualified tag and
the attribute mapping of the first started element, never looking past the
root start tag. -/
def parse_root (raw : List Char) : Option (List Char × List (List Char × List Char)) :=
  match skipDecl raw with
  | '<' :: r0 =>
    let name := r0.takeWhile isNameC
    if name.isEmpty then none
    else
      let r1 := r0.dropWhile isNameC
      match parseAttrs (r1.length + 1) r1 with
      | none => none
      | some (attrs, r2) =>
        match r2 with
        | ' ' :: '/' :: '>' :: _ => some (name, attrs)
        | '/' :: '>' :: _ => some (name, attrs)
        | '>' :: _ => some (name, attrs)
        | _ => none
  | _ => none

/-- Constraint argument of `validated_element`: Python passes either a single
string (`basestring`) or a sequence of strings. -/
inductive TagArg where
  | str (s : List Char)
  | seq (l : List (List Char))

/-- Python truthiness of a `tags`/`attrs` entry: an empty string and an empty
sequence are falsy. -/
def tagTruthy : TagArg → Bool
  | .str s => !s.isEmpty
  | .seq l => !l.isEmpty

/-- The listified form: `if isinstance(tags, basestring): tags = [tags]`. -/
def tagArgList : TagArg → List (List Char)
  | .str s => [s]
  | .seq l => l

/-- Message of the `XMLError` raised on a tag-constraint violation:
`"Element [%s] does not meet requirement" % ele.tag`. -/
def reqMsg (tag : List Char) : List Char :=
  "Element [".data ++ tag ++ "] does not meet requirement".data

/-- Message of the `XMLError` raised on an attribute-constraint violation:
`"Element [%s] does not have required attributes" % ele.tag`. -/
def attrMsg (tag : List Char) : List Char :=
  "Element [".data ++ tag ++ "] does not have required attributes".data

/-- At least one of the alternative attribute names of `req` is present among
the element's attributes (the inner `for alt in req: ... break / else raise`). -/
def hasAlt (ele : Element) (req : TagArg) : Prop :=
  ∃ alt ∈ tagArgList req, alt ∈ ele.attrib.map Prod.fst

instance (ele : Element) (req : TagArg) : Decidable (hasAlt ele req) :=
  List.decidableBEx _ _

/-- The tag check of `validated_element`. -/
def checkTags (ele : Element) : Option TagArg → Except PyError Unit
  | none => .ok ()
  | some ta =>
    if tagTruthy ta then
      if ele.tag ∈ tagArgList ta then .ok () else .error (.xmlError (reqMsg ele.tag))
    else .ok ()

/-- The ordered attribute checks of `validated_element`. -/
def checkAttrsList (ele : Element) : List TagArg → Except PyError Unit
  | [] => .ok ()
  | req :: rest =>
    if hasAlt ele req then checkAttrsList ele rest
    else .error (.xmlError (attrMsg ele.tag))

/-- The attribute check of `validated_element`, guarded by truthiness of the
`attrs` argument (`if attrs:`). -/
def checkAttrs (ele : Element) : Option (List TagArg) → Except PyError Unit
  | none => .ok ()
  | some l => if l.isEmpty then .ok () else checkAttrsList ele l

/-- Model of `validated_element(x, tags=None, attrs=None)`. -/
def validated_element (x : XVal) (tags : Option TagArg) (attrs : Option (List TagArg)) :
    Except PyError Element :=
  match to_ele x with
  | .error e => .error e
  | .ok ele =>
    match checkTags ele tags with
    | .error e => .error e
    | .ok () =>
      match checkAttrs ele attrs with
      | .error e => .error e
      | .ok () => .ok ele

/-- Well-formedness of an XML name: nonempty and made of name characters. -/
def wfName (n : List Char) : Bool :=
  !n.isEmpty && n.all isNameC

/-- Well-formedness of an attribute list: well-formed names, no duplicate keys. -/
def wfAttrs (l : List (List Char × List Char)) : Bool :=
  l.all (fun p => wfName p.1) && decide (l.map Prod.fst).Nodup

mutual

/-- Well-formedness of an element: tag and attribute names well-formed,
recursively in all children (text, values and tails are unrestricted). -/
def wfE : Element → Bool
  | .mk t a _ c _ => wfName t && wfAttrs a && wfL c

/-- Well-formedness of a list of elements. -/
def wfL : List Element → Bool
  | [] => true
  | e :: es => wfE e && wfL es

end

mutual

/-- The canonical form an element assumes after one serialise/parse round
trip: attribute lists become key-sorted, recursively. -/
def canon : Element → Element
  | .mk t a x c tl => .mk t (sortAttrs a) x (canonList c) tl

/-- Canonical form of a list of elements. -/
def canonList : List Element → List Element
  | [] => []
  | e :: es => canon e :: canonList es

end

mutual

/-- Structural measure of an element, used as a fuel bound for the parser. -/
def mE : Element → Nat
  | .mk _ _ _ c _ => 1 + mL c

/-- Structural measure of a list of elements. -/
def mL : List Element → Nat
  | [] => 1
  | e :: es => 1 + mE e + mL es

end

/-- Character predicate for acceptable encoding names (no markup characters);
satisfied by every real encoding name such as `UTF-8` or `iso-8859-1`. -/
def encOk (enc : List Char) : Bool :=
  enc.all (fun c => !(c == '<' || c == '>' || c == '?' || c == '&' || c == '"'))

/-- Structural similarity used by the round-trip claim: same tag, same
attribute mapping (pointwise lookup), same text and tail, and pairwise
similar children. -/
inductive Similar : Element → Element → Prop where
  | mk {t₁ a₁ x₁ c₁ l₁ t₂ a₂ x₂ c₂ l₂} :
      t₁ = t₂ → (∀ k, a₁.lookup k = a₂.lookup k) → x₁ = x₂ → l₁ = l₂ →
      List.Forall₂ Similar c₁ c₂ →
      Similar (.mk t₁ a₁ x₁ c₁ l₁) (.mk t₂ a₂ x₂ c₂ l₂)

/-- Occurrence count of a pattern in a string: the number of positions where
the pattern begins. -/
def countSub (pat : List Char) : List Char → Nat
  | [] => 0
  | c :: rest => (if pat.isPrefixOf (c :: rest) then 1 else 0) + countSub pat rest

/-- Concrete element `<other/>` used by witnesses. -/
def sampleOther : Element := .mk "other".data [] [] [] []

/-- Concrete element `<rpc-reply message-id="1"/>` used by witnesses. -/
def sampleReply : Element := .mk "rpc-reply".data [("message-id".data, "1".data)] [] [] []

/-- Concrete tag constraint `["rpc-reply", "rpc-error"]` used by witnesses. -/
def tagsRR : TagArg := .seq ["rpc-reply".data, "rpc-error".data]

/-- Concrete element with a child, used by the round-trip witness. -/
def sampleTree : Element :=
  .mk "rpc-reply".data [("message-id".data, "1".data)] "t".data
    [.mk "data".data [("a".data, "v".data)] [] [] "w".data] []

/-! Dictionary lemmas for the namespace table and attribute merging. -/

theorem dictAssign_of_mem {d : List (List Char × List Char)} {k : List Char}
    (v : List Char) (h : k ∈ d.map Prod.fst) :
    dictAssign d k v = d.map (fun p => if p.1 = k then (k, v) else p) := by
  simp [dictAssign, h]

theorem dictAssign_of_not_mem {d : List (List Char × List Char)} {k : List Char}
    (v : List Char) (h : k ∉ d.map Prod.fst) :
    dictAssign d k v = d ++ [(k, v)] := by
  simp [dictAssign, h]

theorem lookup_append (k : List Char) (a b : List (List Char × List Char)) :
    List.lookup k (a ++ b) =
      match List.lookup k a with
      | some v => some v
      | none => List.lookup k b := by
  induction a with
  | nil => simp
  | cons p a ih =>
    obtain ⟨p1, p2⟩ := p
    by_cases h : k = p1
    · simp [List.lookup_cons, h]
    · simp only [List.cons_append, List.lookup_cons, beq_eq_false_iff_ne.2 h, ih]

theorem lookup_eq_none_of_not_mem_keys {k : List Char} {d : List (List Char × List Char)}
    (h : k ∉ d.map Prod.fst) : List.lookup k d = none := by
  induction d with
  | nil => simp
  | cons p d ih =>
    obtain ⟨p1, p2⟩ := p
    simp only [List.map_cons, List.mem_cons, not_or] at h
    simp only [List.lookup_cons, beq_eq_false_iff_ne.2 h.1, ih h.2]

theorem lookup_map_assign {d : List (List Char × List Char)} {k v : List Char}
    (h : k ∈ d.map Prod.fst) :
    List.lookup k (d.map (fun p => if p.1 = k then (k, v) else p)) = some v := by
  induction d with
  | nil => simp at h
  | cons p d ih =>
    obtain ⟨p1, p2⟩ := p
    by_cases hpk : p1 = k
    · simp [List.lookup_cons, hpk]
    · have hk : k ∈ d.map Prod.fst := by
        simp only [List.map_cons, List.mem_cons] at h
        exact h.resolve_left (fun hh => hpk hh.symm)
      simpa [List.lookup_cons, hpk, beq_eq_false_iff_ne.2 (Ne.symm hpk)] using ih hk

theorem lookup_map_assign_other {k' k : List Char} {d : List (List Char × List Char)}
    (v : List Char) (h : k' ≠ k) :
    List.lookup k' (d.map (fun p => if p.1 = k then (k, v) else p)) =
      List.lookup k' d := by
  induction d with
  | nil => simp
  | cons p d ih =>
    obtain ⟨p1, p2⟩ := p
    by_cases hpk : p1 = k
    · subst hpk
      simp [List.lookup_cons, beq_eq_false_iff_ne.2 h, ih]
    · simp only [List.map_cons, if_neg hpk, List.lookup_cons]
      cases hbe : (k' == p1) with
      | true => rfl
      | false => exact ih

theorem lookup_dictAssign_same (d : List (List Char × List Char)) (k v : List Char) :
    List.lookup k (dictAssign d k v) = some v := by
  by_cases h : k ∈ d.map Prod.fst
  · rw [dictAssign_of_mem v h]
    exact lookup_map_assign h
  · rw [dictAssign_of_not_mem v h, lookup_append, lookup_eq_none_of_not_mem_keys h]
    simp [List.lookup_cons]

theorem lookup_dictAssign_other {k' k : List Char} (d : List (List Char × List Char))
    (v : List Char) (h : k' ≠ k) :
    List.lookup k' (dictAssign d k v) = List.lookup k' d := by
  by_cases hm : k ∈ d.map Prod.fst
  · rw [dictAssign_of_mem v hm]
    exact lookup_map_assign_other v h
  · rw [dictAssign_of_not_mem v hm, lookup_append]
    cases hl : List.lookup k' d with
    | some v' => rfl
    | none => simp [List.lookup_cons, beq_eq_false_iff_ne.2 h]

theorem map_fst_assign (d : List (List Char × List Char)) (k v : List Char) :
    (d.map (fun p => if p.1 = k then (k, v) else p)).map Prod.fst = d.map Prod.fst := by
  rw [List.map_map]
  apply List.map_congr_left
  intro p _
  by_cases h : p.1 = k <;> simp [h, Function.comp]

theorem dictAssign_idem (d : List (List Char × List Char)) (k v : List Char) :
    dictAssign (dictAssign d k v) k v = dictAssign d k v := by
  by_cases h : k ∈ d.map Prod.fst
  · rw [dictAssign_of_mem v h]
    have hk2 : k ∈ (d.map (fun p => if p.1 = k then (k, v) else p)).map Prod.fst := by
      rw [map_fst_assign]; exact h
    rw [dictAssign_of_mem v hk2, List.map_map]
    apply List.map_congr_left
    intro p _
    by_cases hp : p.1 = k <;> simp [hp, Function.comp]
  · rw [dictAssign_of_not_mem v h]
    have hk : k ∈ (d ++ [(k, v)]).map Prod.fst := by simp
    rw [dictAssign_of_mem v hk, List.map_append]
    congr 1
    · calc List.map (fun p => if p.1 = k then (k, v) else p) d
          = List.map id d := List.map_congr_left (fun p hp => by
            have hne : p.1 ≠ k := fun hh => h (hh ▸ List.mem_map_of_mem Prod.fst hp)
            simp [hne])
        _ = d := List.map_id d
    · simp

theorem lookup_dictMerge (a u : List (List Char × List Char)) (k : List Char)
    (hu : (u.map Prod.fst).Nodup) :
    List.lookup k (dictMerge a u) =
      match List.lookup k u with
      | some v => some v
      | none => List.lookup k a := by
  induction u generalizing a with
  | nil => simp [dictMerge]
  | cons p u ih =>
    obtain ⟨p1, p2⟩ := p
    simp only [List.map_cons, List.nodup_cons] at hu
    have step : dictMerge a ((p1, p2) :: u) = dictMerge (dictAssign a p1 p2) u := rfl
    rw [step, ih _ hu.2]
    by_cases h : k = p1
    · subst h
      have hnone : List.lookup k u = none := lookup_eq_none_of_not_mem_keys hu.1
      simp [hnone, List.lookup_cons, lookup_dictAssign_same]
    · simp only [List.lookup_cons, beq_eq_false_iff_ne.2 h,
        lookup_dictAssign_other a p2 h]

/-! Claims about qualify, register_namespace, new_ele and sub_ele. -/

/-- Claim C6: `qualify` with the sentinel no-namespace value returns the tag
unchanged; with a namespace URI it returns the Clark-notation string
`{ns}tag`; with the namespace argument omitted it uses the base NETCONF
namespace, so `qualify "rpc"` is the qualified NETCONF rpc name.  No
validation of the tag is performed: the equations hold for every tag. -/
theorem qualify_spec :
    qualify "rpc".data = "\x7burn:ietf:params:xml:ns:netconf:base:1.0\x7drpc".data
    ∧ (∀ t, qualify t none = t)
    ∧ (∀ t n, qualify t (some n) = "\x7b".data ++ n ++ "\x7d".data ++ t) := by
  refine ⟨by decide, fun t => rfl, fun t n => ?_⟩
  simp [qualify, lbrace, rbrace]

/-- Claim C8: `register_namespace` is idempotent and last-wins: registering
prefixes `p1` then `p2` for the same URI leaves the table mapping the URI to
`p2`, and repeating a registration leaves the table unchanged. -/
theorem register_namespace_spec :
    (∀ table u p1 p2,
      List.lookup u (register_namespace (register_namespace table p1 u) p2 u) = some p2)
    ∧ (∀ table u p1,
      register_namespace (register_namespace table p1 u) p1 u =
        register_namespace table p1 u) := by
  constructor
  · intro table u p1 p2
    exact lookup_dictAssign_same _ u p2
  · intro table u p1
    exact dictAssign_idem table u p1

/-- Claim C9: `new_ele` creates an element whose attribute mapping merges
`attrs` and `extra` with `extra` taking precedence on key collision, and
`sub_ele` creates the same element and appends it as the last child of the
parent, leaving the parent's existing children (and everything else)
unchanged. -/
theorem new_ele_sub_ele_spec (tag : List Char) (attrs extra : List (List Char × List Char))
    (parent : Element) (hu : (extra.map Prod.fst).Nodup) :
    (∀ k, (new_ele tag attrs extra).attrib.lookup k =
      match extra.lookup k with
      | some v => some v
      | none => attrs.lookup k)
    ∧ (new_ele tag attrs extra).tag = tag
    ∧ sub_ele parent tag attrs extra =
        (new_ele tag attrs extra,
         .mk parent.tag parent.attrib parent.text
           (parent.children ++ [new_ele tag attrs extra]) parent.tail) := by
  refine ⟨fun k => ?_, rfl, rfl⟩
  simpa [new_ele, Element.attrib] using lookup_dictMerge attrs extra k hu

/-- Witness for C9 at concrete inputs. -/
theorem new_ele_sub_ele_spec_witness :
    (([("m".data, "2".data)] : List (List Char × List Char)).map Prod.fst).Nodup ∧
    ((∀ k, (new_ele "t".data [("a".data, "1".data)] [("m".data, "2".data)]).attrib.lookup k =
      match [("m".data, "2".data)].lookup k with
      | some v => some v
      | none => [("a".data, "1".data)].lookup k)
    ∧ (new_ele "t".data [("a".data, "1".data)] [("m".data, "2".data)]).tag = "t".data
    ∧ sub_ele sampleOther "t".data [("a".data, "1".data)] [("m".data, "2".data)] =
        (new_ele "t".data [("a".data, "1".data)] [("m".data, "2".data)],
         .mk sampleOther.tag sampleOther.attrib sampleOther.text
           (sampleOther.children ++
             [new_ele "t".data [("a".data, "1".data)] [("m".data, "2".data)]])
           sampleOther.tail)) := by
  constructor
  · decide
  · exact new_ele_sub_ele_spec "t".data [("a".data, "1".data)]
      [("m".data, "2".data)] sampleOther (by decide)

/-! Claims about validated_element and to_ele. -/

theorem checkAttrsList_eq (ele : Element) (l : List TagArg) :
    checkAttrsList ele l =
      if ∀ req ∈ l, hasAlt ele req then .ok ()
      else .error (.xmlError (attrMsg ele.tag)) := by
  induction l with
  | nil => simp [checkAttrsList]
  | cons req rest ih =>
    by_cases h : hasAlt ele req
    · simp [checkAttrsList, h, ih]
    · simp [checkAttrsList, h]

/-- Claim C2: with a truthy tag constraint and no attribute constraint,
`validated_element` raises an `XMLError` exactly when the tag of the element
produced by `to_ele` is not among the allowed tag names, and the raised error
carries the offending element's tag name; otherwise it returns that element. -/
theorem validated_element_tags_spec (x : XVal) (ta : TagArg) (ele : Element)
    (hok : to_ele x = .ok ele) (htruthy : tagTruthy ta = true) :
    validated_element x (some ta) none =
      if ele.tag ∈ tagArgList ta then .ok ele
      else .error (.xmlError (reqMsg ele.tag)) := by
  unfold validated_element
  rw [hok]
  simp only [checkTags, htruthy, if_true, checkAttrs]
  by_cases h : ele.tag ∈ tagArgList ta <;> simp [h]

/-- Witness for C2: `validated_element('<other/>', tags=["rpc-reply","rpc-error"])`
takes the error branch because "other" is not in the allowed tag set. -/
theorem validated_element_tags_spec_witness :
    to_ele (.ele sampleOther) = .ok sampleOther ∧ tagTruthy tagsRR = true ∧
    validated_element (.ele sampleOther) (some tagsRR) none =
      if sampleOther.tag ∈ tagArgList tagsRR then .ok sampleOther
      else .error (.xmlError (reqMsg sampleOther.tag)) :=
  ⟨rfl, rfl, validated_element_tags_spec (.ele sampleOther) tagsRR sampleOther rfl rfl⟩

/-- Claim C3: with attribute constraints and no tag constraint,
`validated_element` raises an `XMLError` exactly when some entry has none of
its alternative names among the element's attributes; on success it returns
the very element produced by `to_ele`. -/
theorem validated_element_attrs_spec (x : XVal) (reqs : List TagArg) (ele : Element)
    (hok : to_ele x = .ok ele) (hne : reqs ≠ []) :
    validated_element x none (some reqs) =
      if ∀ req ∈ reqs, hasAlt ele req then .ok ele
      else .error (.xmlError (attrMsg ele.tag)) := by
  unfold validated_element
  rw [hok]
  simp only [checkTags, checkAttrs]
  have hne' : ¬ reqs.isEmpty = true := by simpa using hne
  rw [if_neg hne', checkAttrsList_eq]
  by_cases h : ∀ req ∈ reqs, hasAlt ele req
  · rw [if_pos h, if_pos h]
  · rw [if_neg h, if_neg h]

/-- Witness for C3: `validated_element('<rpc-reply message-id="1"/>',
tags omitted, attrs=["message-id"])` succeeds and returns the element. -/
theorem validated_element_attrs_spec_witness :
    to_ele (.ele sampleReply) = .ok sampleReply ∧ ([TagArg.str "message-id".data] ≠ []) ∧
    validated_element (.ele sampleReply) none (some [TagArg.str "message-id".data]) =
      if ∀ req ∈ [TagArg.str "message-id".data], hasAlt sampleReply req then .ok sampleReply
      else .error (.xmlError (attrMsg sampleReply.tag)) :=
  ⟨rfl, by simp, validated_element_attrs_spec (.ele sampleReply)
    [TagArg.str "message-id".data] sampleReply rfl (by simp)⟩

/-- Claim C10: an empty sequence passed as the `tags` or `attrs` constraint is
falsy, so the corresponding check is disabled entirely and `validated_element`
accepts an element with any tag and returns it. -/
theorem validated_element_empty_constraints (x : XVal) (ele : Element)
    (hok : to_ele x = .ok ele) :
    validated_element x (some (.seq [])) none = .ok ele
    ∧ validated_element x none (some []) = .ok ele
    ∧ validated_element x (some (.seq [])) (some []) = .ok ele := by
  refine ⟨?_, ?_, ?_⟩ <;>
    simp [validated_element, hok, checkTags, checkAttrs, tagTruthy]

/-- Witness for C10 at the concrete element `<other/>`. -/
theorem validated_element_empty_constraints_witness :
    to_ele (.ele sampleOther) = .ok sampleOther ∧
    (validated_element (.ele sampleOther) (some (.seq [])) none = .ok sampleOther
    ∧ validated_element (.ele sampleOther) none (some []) = .ok sampleOther
    ∧ validated_element (.ele sampleOther) (some (.seq [])) (some []) = .ok sampleOther) :=
  ⟨rfl, validated_element_empty_constraints (.ele sampleOther) sampleOther rfl⟩

/-- Claim C4: `to_ele` returns an `Element` argument unchanged (identity, no
copy); on a string argument it returns exactly the parse result of the
underlying library's `fromstring`, and the only error the latter produces is
the library `ParseError`, propagated unchanged. -/
theorem to_ele_spec :
    (∀ e, to_ele (.ele e) = .ok e)
    ∧ (∀ s, to_ele (.str s) = ET_fromstring s)
    ∧ (∀ s err, to_ele (.str s) = .error err → err = .parseError) := by
  refine ⟨fun e => rfl, fun s => rfl, fun s err h => ?_⟩
  simp only [to_ele, ET_fromstring] at h
  split at h
  · exact absurd h (by simp)
  · cases h
    rfl

/-- Witness for C4: the malformed input `"<"` produces the propagated
`ParseError`. -/
theorem to_ele_spec_witness :
    to_ele (.str "<".data) = .error .parseError ∧ PyError.parseError = .parseError := by
  have hc : to_ele (.str "<".data) = .error .parseError := by
    simp [to_ele, ET_fromstring, skipDecl, dropPI, parseElement,
      List.takeWhile, isNameC]
  exact ⟨hc, to_ele_spec.2.2 "<".data .parseError hc⟩

/-! Escaping and unescaping lemmas. -/

theorem unescape_amp (r : List Char) :
    unescape ('&' :: 'a' :: 'm' :: 'p' :: ';' :: r) = '&' :: unescape r := by
  rw [unescape]
  simp [List.isPrefixOf]

theorem unescape_ltc (r : List Char) :
    unescape ('&' :: 'l' :: 't' :: ';' :: r) = '<' :: unescape r := by
  rw [unescape]
  simp [List.isPrefixOf]

theorem unescape_gtc (r : List Char) :
    unescape ('&' :: 'g' :: 't' :: ';' :: r) = '>' :: unescape r := by
  rw [unescape]
  simp [List.isPrefixOf]

theorem unescape_quot (r : List Char) :
    unescape ('&' :: 'q' :: 'u' :: 'o' :: 't' :: ';' :: r) = '"' :: unescape r := by
  rw [unescape]
  simp [List.isPrefixOf]

theorem unescape_other {c : Char} (r : List Char) (h : c ≠ '&') :
    unescape (c :: r) = c :: unescape r := by
  rw [unescape]
  simp [h]

theorem unescape_escChar (q : Bool) (v : List Char) :
    unescape (v.flatMap (escChar q)) = v := by
  induction v with
  | nil => simp [unescape]
  | cons c v ih =>
    rw [List.flatMap_cons]
    by_cases h1 : c = '&'
    · subst h1
      have he : escChar q '&' = '&' :: 'a' :: 'm' :: 'p' :: ';' :: [] := by
        simp [escChar]
      rw [he, List.cons_append, List.cons_append, List.cons_append, List.cons_append,
        List.cons_append, List.nil_append, unescape_amp, ih]
    · by_cases h2 : c = '<'
      · subst h2
        have he : escChar q '<' = '&' :: 'l' :: 't' :: ';' :: [] := by
          simp [escChar]
        rw [he, List.cons_append, List.cons_append, List.cons_append, List.cons_append,
          List.nil_append, unescape_ltc, ih]
      · by_cases h3 : c = '>'
        · subst h3
          have he : escChar q '>' = '&' :: 'g' :: 't' :: ';' :: [] := by
            simp [escChar]
          rw [he, List.cons_append, List.cons_append, List.cons_append, List.cons_append,
            List.nil_append, unescape_gtc, ih]
        · by_cases h4 : q = true ∧ c = '"'
          · obtain ⟨hq, hc⟩ := h4
            subst hq; subst hc
            have he : escChar true '"' =
                '&' :: 'q' :: 'u' :: 'o' :: 't' :: ';' :: [] := by
              simp [escChar]
            rw [he, List.cons_append, List.cons_append, List.cons_append,
              List.cons_append, List.cons_append, List.cons_append, List.nil_append,
              unescape_quot, ih]
          · have he : escChar q c = [c] := by
              simp only [escChar]
              rw [if_neg (by simp [h1]), if_neg (by simp [h2]), if_neg (by simp [h3]),
                if_neg (by intro hh; exact h4 (by simpa using hh))]
            rw [he, List.singleton_append, unescape_other _ h1, ih]

theorem not_mem_escChar_lt (q : Bool) (c : Char) : '<' ∉ escChar q c := by
  unfold escChar
  split_ifs with h1 h2 h3 h4 <;> simp_all
  intro hc
  exact h2 hc.symm

theorem not_mem_escChar_quot (c : Char) : '"' ∉ escChar true c := by
  unfold escChar
  split_ifs with h1 h2 h3 h4 <;> simp_all
  intro hc
  exact h4 hc.symm

theorem not_mem_escCdata_lt (l : List Char) : '<' ∉ escCdata l := by
  unfold escCdata
  intro h
  obtain ⟨c, _, hc⟩ := List.mem_flatMap.1 h
  exact not_mem_escChar_lt false c hc

theorem not_mem_escAttrib_lt (l : List Char) : '<' ∉ escAttrib l := by
  unfold escAttrib
  intro h
  obtain ⟨c, _, hc⟩ := List.mem_flatMap.1 h
  exact not_mem_escChar_lt true c hc

theorem not_mem_escAttrib_quot (l : List Char) : '"' ∉ escAttrib l := by
  unfold escAttrib
  intro h
  obtain ⟨c, _, hc⟩ := List.mem_flatMap.1 h
  exact not_mem_escChar_quot c hc

/-! Parser lemmas: attribute lists and the root start tag. -/

theorem parseAttrs_default (f : Nat) (c : Char) (r : List Char) (hc : c ≠ ' ') :
    parseAttrs (f+1) (c :: r) = some ([], c :: r) := by
  rw [parseAttrs.eq_def]
  split <;> simp_all

theorem serAttrs_len (l : List (List Char × List Char)) :
    l.length ≤ (serAttrs l).length := by
  induction l with
  | nil => simp [serAttrs]
  | cons p l ih =>
    simp only [serAttrs, List.flatMap_cons, List.length_append, List.length_cons]
    have : 1 ≤ (serAttr p).length := by simp [serAttr]
    simp only [serAttrs] at ih
    omega

theorem parseAttrs_ser (l : List (List Char × List Char)) :
    ∀ (fuel : Nat) (rest : List Char), l.length < fuel →
    (∀ p ∈ l, wfName p.1 = true) →
    (∀ c r', rest = ' ' :: c :: r' → isNameC c = false) →
    parseAttrs fuel (serAttrs l ++ rest) = some (l, rest) := by
  induction l with
  | nil =>
    intro fuel rest hfuel _ hstop
    cases fuel with
    | zero => omega
    | succ f =>
      simp only [serAttrs, List.flatMap_nil, List.nil_append]
      rcases rest with _ | ⟨c, r⟩
      · simp [parseAttrs]
      · by_cases hc : c = ' '
        · subst hc
          rcases r with _ | ⟨c2, r2⟩
          · simp [parseAttrs]
          · have hc2 : isNameC c2 = false := hstop c2 r2 rfl
            simp [parseAttrs, hc2]
        · exact parseAttrs_default f c r hc
  | cons p l ih =>
    intro fuel rest hfuel hwf hstop
    obtain ⟨p1, p2⟩ := p
    cases fuel with
    | zero => omega
    | succ f =>
      have hw : wfName p1 = true := hwf (p1, p2) (List.mem_cons_self _ _)
      simp only [wfName, Bool.and_eq_true] at hw
      have hall : ∀ x ∈ p1, isNameC x = true :=
        fun x hx => List.all_eq_true.1 hw.2 x hx
      have hne : p1.isEmpty = false := by
        simpa using hw.1
      have hinput : serAttrs ((p1, p2) :: l) ++ rest =
          ' ' :: (p1 ++ ('=' :: '"' :: (escAttrib p2 ++ ('"' :: (serAttrs l ++ rest))))) := by
        simp [serAttrs, serAttr, List.append_assoc]
      rw [hinput, parseAttrs.eq_def]
      have htake : List.takeWhile isNameC
          (p1 ++ ('=' :: '"' :: (escAttrib p2 ++ ('"' :: (serAttrs l ++ rest))))) = p1 := by
        rw [List.takeWhile_append_of_pos hall, List.takeWhile_cons_of_neg (by decide)]
        simp
      have hdrop : List.dropWhile isNameC
          (p1 ++ ('=' :: '"' :: (escAttrib p2 ++ ('"' :: (serAttrs l ++ rest))))) =
          '=' :: '"' :: (escAttrib p2 ++ ('"' :: (serAttrs l ++ rest))) := by
        rw [List.dropWhile_append_of_pos hall, List.dropWhile_cons_of_neg (by decide)]
      have hvq : ∀ x ∈ escAttrib p2, (!(x == '"')) = true := by
        intro x hx
        have : x ≠ '"' := fun hh => not_mem_escAttrib_quot p2 (hh ▸ hx)
        simp [this]
      have htake2 : List.takeWhile (fun c => !(c == '"'))
          (escAttrib p2 ++ ('"' :: (serAttrs l ++ rest))) = escAttrib p2 := by
        rw [List.takeWhile_append_of_pos hvq, List.takeWhile_cons_of_neg (by decide)]
        simp
      have hdrop2 : List.dropWhile (fun c => !(c == '"'))
          (escAttrib p2 ++ ('"' :: (serAttrs l ++ rest))) =
          '"' :: (serAttrs l ++ rest) := by
        rw [List.dropWhile_append_of_pos hvq, List.dropWhile_cons_of_neg (by decide)]
      have hih : parseAttrs f (serAttrs l ++ rest) = some (l, rest) := by
        apply ih f rest (by simpa using Nat.lt_of_succ_lt_succ hfuel)
          (fun q hq => hwf q (List.mem_cons_of_mem _ hq)) hstop
      have huq : unescape (escAttrib p2) = p2 := unescape_escChar true p2
      simp only [htake, hdrop, htake2, hdrop2, hih, hne, huq]
      simp

theorem skipDecl_no_decl {c : Char} (r : List Char) (hc : c ≠ '?') :
    skipDecl ('<' :: c :: r) = '<' :: c :: r := by
  rw [skipDecl.eq_def]
  split <;> simp_all

theorem parse_root_start (t : List Char) (attrs : List (List Char × List Char))
    (junk : List Char) (ht : wfName t = true) (ha : ∀ p ∈ attrs, wfName p.1 = true) :
    parse_root ('<' :: (t ++ (serAttrs attrs ++ ('>' :: junk)))) = some (t, attrs) := by
  simp only [wfName, Bool.and_eq_true] at ht
  have hall : ∀ x ∈ t, isNameC x = true := fun x hx => List.all_eq_true.1 ht.2 x hx
  have hne : t.isEmpty = false := by simpa using ht.1
  rcases t with _ | ⟨th, tt⟩
  · simp at hne
  · have hth : th ≠ '?' := by
      intro hh
      have hmem := hall th (List.mem_cons_self _ _)
      rw [hh] at hmem
      simp [isNameC] at hmem
    have halltt : ∀ x ∈ tt, isNameC x = true :=
      fun x hx => hall x (List.mem_cons_of_mem _ hx)
    have hXt : List.takeWhile isNameC (serAttrs attrs ++ ('>' :: junk)) = [] := by
      rcases attrs with _ | ⟨p, l⟩
      · simp only [serAttrs, List.flatMap_nil, List.nil_append]
        rw [List.takeWhile_cons_of_neg (by decide)]
      · simp only [serAttrs, List.flatMap_cons, serAttr, List.cons_append]
        rw [List.takeWhile_cons_of_neg (by decide)]
    have hXd : List.dropWhile isNameC (serAttrs attrs ++ ('>' :: junk)) =
        serAttrs attrs ++ ('>' :: junk) := by
      rcases attrs with _ | ⟨p, l⟩
      · simp only [serAttrs, List.flatMap_nil, List.nil_append]
        rw [List.dropWhile_cons_of_neg (by decide)]
      · simp only [serAttrs, List.flatMap_cons, serAttr, List.cons_append]
        rw [List.dropWhile_cons_of_neg (by decide)]
    have hskip := skipDecl_no_decl (tt ++ (serAttrs attrs ++ ('>' :: junk))) hth
    have htake : List.takeWhile isNameC (th :: (tt ++ (serAttrs attrs ++ ('>' :: junk)))) =
        th :: tt := by
      rw [List.takeWhile_cons_of_pos (hall th (List.mem_cons_self _ _)),
        List.takeWhile_append_of_pos halltt, hXt]
      simp
    have hdrop : List.dropWhile isNameC (th :: (tt ++ (serAttrs attrs ++ ('>' :: junk)))) =
        serAttrs attrs ++ ('>' :: junk) := by
      rw [List.dropWhile_cons_of_pos (hall th (List.mem_cons_self _ _)),
        List.dropWhile_append_of_pos halltt, hXd]
    have hpa : parseAttrs ((serAttrs attrs ++ ('>' :: junk)).length + 1)
        (serAttrs attrs ++ ('>' :: junk)) = some (attrs, '>' :: junk) := by
      apply parseAttrs_ser attrs _ ('>' :: junk) ?_ ha ?_
      · have h1 := serAttrs_len attrs
        have h2 : (serAttrs attrs).length ≤ (serAttrs attrs ++ ('>' :: junk)).length := by
          simp
        omega
      · intro c r' h
        simp at h
    simp only [List.cons_append]
    simp only [parse_root, hskip, htake, hdrop, hpa, hne]
    simp


/-- Claim C7: `parse_root` returns the pair of the root tag and its attribute
mapping taken from the first element-start event; on the concrete document
`<a x="1"><b/></a>` it returns `("a", [("x","1")])`, and in general it
succeeds on any well-formed start tag followed by arbitrary junk, never
reading or validating the content after the root start tag. -/
theorem parse_root_spec :
    parse_root "<a x=\"1\"><b/></a>".data = some ("a".data, [("x".data, "1".data)])
    ∧ ∀ t attrs junk, wfName t = true → (∀ p ∈ attrs, wfName p.1 = true) →
        parse_root ('<' :: (t ++ (serAttrs attrs ++ ('>' :: junk)))) = some (t, attrs) := by
  constructor
  · have heq : "<a x=\"1\"><b/></a>".data =
        '<' :: ("a".data ++ (serAttrs [("x".data, "1".data)] ++ ('>' :: "<b/></a>".data))) := by
      decide
    rw [heq]
    exact parse_root_start "a".data [("x".data, "1".data)] "<b/></a>".data
      (by decide) (by decide)
  · exact parse_root_start

/-- Witness for C7: the root start tag `<b>` followed by malformed junk is
still parsed successfully. -/
theorem parse_root_spec_witness :
    wfName "b".data = true
    ∧ (∀ p ∈ ([] : List (List Char × List Char)), wfName p.1 = true)
    ∧ parse_root ('<' :: ("b".data ++ (serAttrs [] ++ ('>' :: "<oops".data)))) =
        some ("b".data, []) :=
  ⟨by decide, by decide,
   parse_root_spec.2 "b".data [] "<oops".data (by decide) (by decide)⟩

/-! Occurrence counting and serializer character facts, for the declaration claim. -/

theorem countSub_le_of_prefix {p1 p2 : List Char} (h : p1 <+: p2) (l : List Char) :
    countSub p2 l ≤ countSub p1 l := by
  induction l with
  | nil => simp [countSub]
  | cons c rest ih =>
    simp only [countSub]
    have hle : (if p2.isPrefixOf (c :: rest) then 1 else 0) ≤
        (if p1.isPrefixOf (c :: rest) then 1 else 0) := by
      by_cases h2 : p2.isPrefixOf (c :: rest)
      · have hp2 : p2 <+: c :: rest := List.isPrefixOf_iff_prefix.1 h2
        have hp1 : p1.isPrefixOf (c :: rest) := List.isPrefixOf_iff_prefix.2 (h.trans hp2)
        simp [h2, hp1]
      · simp [h2]
    omega

theorem countSub_zero_of_not_mem {x : Char} (p l : List Char) (h : x ∉ l) :
    countSub (x :: p) l = 0 := by
  induction l with
  | nil => rfl
  | cons c rest ih =>
    have hx : (x == c) = false := by
      refine beq_eq_false_iff_ne.2 (fun hh => h ?_)
      rw [hh]
      exact List.mem_cons_self _ _
    simp only [countSub, List.isPrefixOf_cons₂, hx, Bool.false_and, if_neg]
    have := ih (fun hm => h (List.mem_cons_of_mem _ hm))
    simpa using this

theorem countSub2_append (x y : Char) (a b : List Char) :
    countSub [x, y] (a ++ b) =
      countSub [x, y] a +
      (if a.getLast? = some x ∧ b.head? = some y then 1 else 0) +
      countSub [x, y] b := by
  induction a with
  | nil => simp [countSub]
  | cons c a ih =>
    cases a with
    | nil =>
      cases b with
      | nil => simp [countSub, List.isPrefixOf]
      | cons d b' =>
        have hl : ([c] ++ d :: b') = c :: d :: b' := rfl
        have h1 : countSub [x, y] (c :: d :: b') =
            (if [x, y].isPrefixOf (c :: d :: b') then 1 else 0) +
            countSub [x, y] (d :: b') := by
          simp [countSub]
        have h2 : countSub [x, y] [c] = 0 := by
          simp [countSub, List.isPrefixOf]
        have hcond : ([x, y].isPrefixOf (c :: d :: b') = true) ↔
            ([c].getLast? = some x ∧ (d :: b').head? = some y) := by
          simp only [List.isPrefixOf_cons₂, List.isPrefixOf_nil_left, Bool.and_true,
            Bool.and_eq_true, beq_iff_eq, List.getLast?_singleton, List.head?_cons,
            Option.some.injEq]
          constructor
          · rintro ⟨ha, hb⟩
            exact ⟨ha.symm, hb.symm⟩
          · rintro ⟨ha, hb⟩
            exact ⟨ha.symm, hb.symm⟩
        rw [hl, h1, h2, if_congr hcond rfl rfl]
        omega
    | cons c2 a2 =>
      have hstep : countSub [x, y] (c :: ((c2 :: a2) ++ b)) =
          (if [x, y].isPrefixOf (c :: ((c2 :: a2) ++ b)) then 1 else 0) +
          countSub [x, y] ((c2 :: a2) ++ b) := by
        simp [countSub]
      rw [List.cons_append, hstep, ih]
      have hhead : ([x, y].isPrefixOf (c :: ((c2 :: a2) ++ b))) =
          ([x, y].isPrefixOf (c :: c2 :: a2)) := by
        simp only [List.cons_append, List.isPrefixOf_cons₂, List.isPrefixOf_nil_left,
          Bool.and_true]
      have hlast : (c :: c2 :: a2).getLast? = (c2 :: a2).getLast? :=
        List.getLast?_cons_cons
      have hcount : countSub [x, y] (c :: c2 :: a2) =
          (if [x, y].isPrefixOf (c :: c2 :: a2) then 1 else 0) +
          countSub [x, y] (c2 :: a2) := by
        simp [countSub]
      rw [hhead, hlast, hcount]
      omega

theorem countSub2_app_zero {x y : Char} {a b : List Char}
    (ha : countSub [x, y] a = 0) (hb : countSub [x, y] b = 0)
    (hcross : ¬(a.getLast? = some x ∧ b.head? = some y)) :
    countSub [x, y] (a ++ b) = 0 := by
  rw [countSub2_append, ha, hb, if_neg hcross]

theorem countSub_pos_of_prefix {p l : List Char} (hne : p ≠ [])
    (h : p.isPrefixOf l = true) : 1 ≤ countSub p l := by
  cases l with
  | nil =>
    cases p with
    | nil => exact absurd rfl hne
    | cons q qs => simp at h
  | cons c rest =>
    simp only [countSub, if_pos h]
    omega

theorem insortKey_perm (p : List Char × List Char) (l : List (List Char × List Char)) :
    List.Perm (insortKey p l) (p :: l) := by
  induction l with
  | nil => exact List.Perm.refl _
  | cons q t ih =>
    rw [insortKey]
    by_cases h : lexLe p.1 q.1
    · simp [h]
    · simp only [h, if_false, Bool.false_eq_true]
      exact (ih.cons q).trans (List.Perm.swap p q t)

theorem sortAttrs_perm (l : List (List Char × List Char)) : List.Perm (sortAttrs l) l := by
  induction l with
  | nil => exact List.Perm.refl _
  | cons p t ih =>
    exact (insortKey_perm p (sortAttrs t)).trans (ih.cons p)

theorem sortAttrs_wf {a : List (List Char × List Char)}
    (h : ∀ p ∈ a, wfName p.1 = true) : ∀ p ∈ sortAttrs a, wfName p.1 = true :=
  fun p hp => h p ((sortAttrs_perm a).mem_iff.1 hp)

theorem not_mem_name_lt {t : List Char} (h : ∀ x ∈ t, isNameC x = true) : '<' ∉ t := by
  intro hm
  have hh := h _ hm
  simp [isNameC] at hh

theorem not_mem_serAttrs_lt {l : List (List Char × List Char)}
    (h : ∀ p ∈ l, wfName p.1 = true) : '<' ∉ serAttrs l := by
  intro hm
  obtain ⟨p, hp, hc⟩ := List.mem_flatMap.1 hm
  have hwf := h p hp
  simp only [wfName, Bool.and_eq_true] at hwf
  rw [serAttr] at hc
  rcases List.mem_cons.1 hc with hc | hc
  · exact absurd hc (by decide)
  rcases List.mem_append.1 hc with hc | hc
  · exact not_mem_name_lt (fun x hx => List.all_eq_true.1 hwf.2 x hx) hc
  rcases List.mem_cons.1 hc with hc | hc
  · exact absurd hc (by decide)
  rcases List.mem_cons.1 hc with hc | hc
  · exact absurd hc (by decide)
  rcases List.mem_append.1 hc with hc | hc
  · exact not_mem_escAttrib_lt p.2 hc
  · have hcc := List.mem_singleton.1 hc
    exact absurd hcc (by decide)

theorem getLast_ne_of_not_mem {x : Char} {l : List Char} (h : x ∉ l) :
    l.getLast? ≠ some x := by
  intro hl
  exact h (List.mem_of_getLast?_eq_some hl)

theorem getLast?_cons_append_ne (c : Char) (l m : List Char) (hm : m ≠ []) :
    (c :: (l ++ m)).getLast? = m.getLast? := by
  have h : c :: (l ++ m) = (c :: l) ++ m := rfl
  rw [h, List.getLast?_append_of_ne_nil _ hm]

theorem encOk_not_mem {enc : List Char} (h : encOk enc = true) :
    '<' ∉ enc ∧ '>' ∉ enc ∧ '?' ∉ enc ∧ '&' ∉ enc ∧ '"' ∉ enc := by
  unfold encOk at h
  rw [List.all_eq_true] at h
  refine ⟨?_, ?_, ?_, ?_, ?_⟩ <;> intro hm <;> have hh := h _ hm <;> simp at hh

theorem countSub_pair_cons_zero {x y c : Char} {rest : List Char}
    (hh : ([x, y].isPrefixOf (c :: rest)) = false) (h0 : countSub [x, y] rest = 0) :
    countSub [x, y] (c :: rest) = 0 := by
  simp [countSub, hh, h0]

theorem pair_isPrefixOf_false₁ {x y c : Char} (rest : List Char) (h : (x == c) = false) :
    ([x, y].isPrefixOf (c :: rest)) = false := by
  simp only [List.isPrefixOf_cons₂, h, Bool.false_and]

theorem pair_isPrefixOf_false₂ {x y c d : Char} (rest : List Char) (h : (y == d) = false) :
    ([x, y].isPrefixOf (c :: d :: rest)) = false := by
  simp only [List.isPrefixOf_cons₂, h, Bool.false_and, Bool.and_false]

theorem no_cross_left {x y : Char} {a b : List Char} (h : a.getLast? ≠ some x) :
    ¬(a.getLast? = some x ∧ b.head? = some y) := fun hc => h hc.1

theorem getLast?_append_ne_lt {a b : List Char} (hA : a.getLast? ≠ some '<')
    (hB : '<' ∉ b) : (a ++ b).getLast? ≠ some '<' := by
  cases hb : b with
  | nil =>
    subst hb
    simpa using hA
  | cons c bs =>
    rw [List.getLast?_append_of_ne_nil _ (by simp [hb])]
    subst hb
    exact getLast_ne_of_not_mem hB

theorem getLast?_append_ne {a b : List Char} (hA : a.getLast? ≠ some '<')
    (hB : b.getLast? ≠ some '<') : (a ++ b).getLast? ≠ some '<' := by
  cases hb : b with
  | nil =>
    subst hb
    simpa using hA
  | cons c bs =>
    rw [List.getLast?_append_of_ne_nil _ (by simp [hb])]
    exact hb ▸ hB

theorem not_mem_closer_lt {t : List Char} (h : ∀ x ∈ t, isNameC x = true) :
    '<' ∉ '/' :: (t ++ ['>']) := by
  intro hm
  rcases List.mem_cons.1 hm with hc | hc
  · exact absurd hc (by decide)
  rcases List.mem_append.1 hc with hc | hc
  · exact not_mem_name_lt h hc
  · exact absurd (List.mem_singleton.1 hc) (by decide)

theorem ser_facts : ∀ n : Nat,
    (∀ e : Element, mE e ≤ n → wfE e = true →
      countSub ['<', '?'] (serializeEle e) = 0 ∧ (serializeEle e).getLast? ≠ some '<')
    ∧ (∀ cs : List Element, mL cs ≤ n → wfL cs = true →
      countSub ['<', '?'] (serList cs) = 0 ∧ (serList cs).getLast? ≠ some '<') := by
  intro n
  induction n with
  | zero =>
    constructor
    · rintro ⟨t, a, x, c, tl⟩ hle _
      rw [mE] at hle
      exact absurd hle (by omega)
    · intro cs hle _
      cases cs with
      | nil =>
        rw [mL] at hle
        exact absurd hle (by omega)
      | cons e es =>
        rw [mL] at hle
        exact absurd hle (by omega)
  | succ n ih =>
    constructor
    · rintro ⟨t, a, x, c, tl⟩ hle hw
      rw [wfE] at hw
      simp only [Bool.and_eq_true] at hw
      obtain ⟨⟨hwt, hwa⟩, hwc⟩ := hw
      simp only [wfName, Bool.and_eq_true] at hwt
      have hallt : ∀ ch ∈ t, isNameC ch = true :=
        fun ch hch => List.all_eq_true.1 hwt.2 ch hch
      have htne : t ≠ [] := by simpa using hwt.1
      simp only [wfAttrs, Bool.and_eq_true] at hwa
      have hwan : ∀ p ∈ a, wfName p.1 = true :=
        fun p hp => List.all_eq_true.1 hwa.1 p hp
      have hwas : ∀ p ∈ sortAttrs a, wfName p.1 = true := sortAttrs_wf hwan
      have hmlc : mL c ≤ n := by
        rw [mE] at hle
        omega
      have ihc := ih.2 c hmlc hwc
      have hA0 : countSub ['<', '?'] (serAttrs (sortAttrs a)) = 0 :=
        countSub_zero_of_not_mem _ _ (not_mem_serAttrs_lt hwas)
      have hAlast : (serAttrs (sortAttrs a)).getLast? ≠ some '<' :=
        getLast_ne_of_not_mem (not_mem_serAttrs_lt hwas)
      have htlast : t.getLast? ≠ some '<' :=
        getLast_ne_of_not_mem (not_mem_name_lt hallt)
      have ht0 : countSub ['<', '?'] t = 0 :=
        countSub_zero_of_not_mem _ _ (not_mem_name_lt hallt)
      have hX0 : countSub ['<', '?'] (escCdata x) = 0 :=
        countSub_zero_of_not_mem _ _ (not_mem_escCdata_lt x)
      have hXlast : (escCdata x).getLast? ≠ some '<' :=
        getLast_ne_of_not_mem (not_mem_escCdata_lt x)
      have hT0 : countSub ['<', '?'] (escCdata tl) = 0 :=
        countSub_zero_of_not_mem _ _ (not_mem_escCdata_lt tl)
      obtain ⟨th, tt, rfl⟩ := List.exists_cons_of_ne_nil htne
      have hth : ('?' == th) = false := by
        refine beq_eq_false_iff_ne.2 (fun hh => ?_)
        have := hallt th (List.mem_cons_self _ _)
        rw [← hh] at this
        simp [isNameC] at this
      have hser : serializeEle (Element.mk (th :: tt) a x c tl) =
          (if x.isEmpty && c.isEmpty then
            '<' :: ((th :: tt) ++ (serAttrs (sortAttrs a) ++ (' ' :: '/' :: '>' :: [])))
           else
            '<' :: ((th :: tt) ++ (serAttrs (sortAttrs a) ++
              ('>' :: (escCdata x ++ (serList c ++
                ('<' :: '/' :: ((th :: tt) ++ ['>']))))))))
          ++ escCdata tl := by
        rw [serializeEle]
      rw [hser]
      by_cases hxc : x.isEmpty && c.isEmpty
      · rw [if_pos hxc]
        have hbody0 : countSub ['<', '?']
            ('<' :: ((th :: tt) ++ (serAttrs (sortAttrs a) ++ (' ' :: '/' :: '>' :: [])))) = 0 := by
          apply countSub_pair_cons_zero
          · rw [List.cons_append]
            exact pair_isPrefixOf_false₂ _ hth
          · apply countSub2_app_zero ht0 ?_ (no_cross_left htlast)
            apply countSub2_app_zero hA0 ?_ (no_cross_left hAlast)
            exact countSub_zero_of_not_mem _ _ (by decide)
        have hbodylast :
            ('<' :: ((th :: tt) ++ (serAttrs (sortAttrs a) ++ (' ' :: '/' :: '>' :: [])))).getLast?
            = some '>' := by
          rw [getLast?_cons_append_ne _ _ _ (by simp),
            List.getLast?_append_of_ne_nil _ (by simp)]
          rfl
        constructor
        · exact countSub2_app_zero hbody0 hT0 (no_cross_left (by rw [hbodylast]; simp))
        · exact getLast?_append_ne_lt (by rw [hbodylast]; simp) (not_mem_escCdata_lt tl)
      · rw [if_neg hxc]
        have hcloser0 : countSub ['<', '?'] ('<' :: '/' :: ((th :: tt) ++ ['>'])) = 0 := by
          apply countSub_pair_cons_zero
          · exact pair_isPrefixOf_false₂ _ (by decide)
          · exact countSub_zero_of_not_mem _ _ (not_mem_closer_lt hallt)
        have hcloslast : ('<' :: '/' :: ((th :: tt) ++ ['>'])).getLast? = some '>' := by
          have hsh : '<' :: '/' :: ((th :: tt) ++ ['>']) =
              '<' :: (('/' :: (th :: tt)) ++ ['>']) := rfl
          rw [hsh, getLast?_cons_append_ne _ _ _ (by simp)]
          rfl
        have hbody0 : countSub ['<', '?']
            ('<' :: ((th :: tt) ++ (serAttrs (sortAttrs a) ++
              ('>' :: (escCdata x ++ (serList c ++
                ('<' :: '/' :: ((th :: tt) ++ ['>'])))))))) = 0 := by
          apply countSub_pair_cons_zero
          · rw [List.cons_append]
            exact pair_isPrefixOf_false₂ _ hth
          · apply countSub2_app_zero ht0 ?_ (no_cross_left htlast)
            apply countSub2_app_zero hA0 ?_ (no_cross_left hAlast)
            apply countSub_pair_cons_zero (pair_isPrefixOf_false₁ _ (by decide))
            apply countSub2_app_zero hX0 ?_ (no_cross_left hXlast)
            exact countSub2_app_zero ihc.1 hcloser0 (no_cross_left ihc.2)
        have hbodylast :
            ('<' :: ((th :: tt) ++ (serAttrs (sortAttrs a) ++
              ('>' :: (escCdata x ++ (serList c ++
                ('<' :: '/' :: ((th :: tt) ++ ['>'])))))))).getLast? = some '>' := by
          rw [getLast?_cons_append_ne _ _ _ (by simp),
            List.getLast?_append_of_ne_nil _ (by simp),
            getLast?_cons_append_ne _ _ _ (by simp),
            List.getLast?_append_of_ne_nil _ (by simp), hcloslast]
        constructor
        · exact countSub2_app_zero hbody0 hT0 (no_cross_left (by rw [hbodylast]; simp))
        · exact getLast?_append_ne_lt (by rw [hbodylast]; simp) (not_mem_escCdata_lt tl)
    · intro cs hle hwl
      cases cs with
      | nil =>
        constructor
        · simp [serList, countSub]
        · simp [serList]
      | cons e es =>
        rw [wfL] at hwl
        simp only [Bool.and_eq_true] at hwl
        have hme : mE e ≤ n := by
          rw [mL] at hle
          omega
        have hml : mL es ≤ n := by
          rw [mL] at hle
          omega
        have ihe := ih.1 e hme hwl.1
        have ihes := ih.2 es hml hwl.2
        have hsl : serList (e :: es) = serializeEle e ++ serList es := by
          rw [serList]
        rw [hsl]
        constructor
        · exact countSub2_app_zero ihe.1 ihes.1 (no_cross_left ihe.2)
        · exact getLast?_append_ne ihe.2 ihes.2

theorem decl_isPrefixOf_cons_cons {th : Char} (rest : List Char)
    (hth : ('?' == th) = false) :
    ("<?xml".data.isPrefixOf ('<' :: th :: rest)) = false := by
  have h5 : "<?xml".data = '<' :: '?' :: 'x' :: 'm' :: 'l' :: [] := by decide
  rw [h5]
  simp only [List.isPrefixOf_cons₂, hth, beq_self_eq_true, Bool.true_and,
    Bool.false_and]

theorem ser_not_decl {e : Element} (hw : wfE e = true) :
    ("<?xml".data.isPrefixOf (serializeEle e)) = false := by
  obtain ⟨t, a, x, c, tl⟩ := e
  rw [wfE] at hw
  simp only [Bool.and_eq_true] at hw
  obtain ⟨⟨hwt, _⟩, _⟩ := hw
  simp only [wfName, Bool.and_eq_true] at hwt
  have htne : t ≠ [] := by simpa using hwt.1
  obtain ⟨th, tt, rfl⟩ := List.exists_cons_of_ne_nil htne
  have hth : ('?' == th) = false := by
    refine beq_eq_false_iff_ne.2 (fun hh => ?_)
    have hmem := List.all_eq_true.1 hwt.2 th (List.mem_cons_self _ _)
    rw [← hh] at hmem
    simp [isNameC] at hmem
  rw [serializeEle]
  by_cases hxc : x.isEmpty && c.isEmpty
  · rw [if_pos hxc]
    simp only [List.cons_append]
    exact decl_isPrefixOf_cons_cons _ hth
  · rw [if_neg hxc]
    simp only [List.cons_append]
    exact decl_isPrefixOf_cons_cons _ hth

/-- Claim C5: `to_xml` output starts with the XML declaration for the
encoding passed in; the declaration occurs exactly once in the output (never
duplicated even when the serializer output already carries one); and when the
serializer output already begins with the declaration prefix, `to_xml`'s
declaration step returns it as-is. -/
theorem to_xml_decl_spec (e : Element) (enc : List Char)
    (hw : wfE e = true) (henc : encOk enc = true) :
    ((xmlDeclFmt enc).isPrefixOf (to_xml e enc)) = true
    ∧ countSub (xmlDeclFmt enc) (to_xml e enc) = 1
    ∧ (∀ s, ("<?xml".data.isPrefixOf s) = true → declOrKeep enc s = s) := by
  have hto : to_xml e enc = xmlDeclFmt enc ++ serializeEle e := by
    rw [to_xml, declOrKeep]
    have hser : ET_tostring e enc = serializeEle e := rfl
    rw [hser, ser_not_decl hw]
    simp
  have hlit : "<?xml version=\"1.0\" encoding=\"".data =
      '<' :: '?' :: "xml version=\"1.0\" encoding=\"".data := by decide
  have hdecl : xmlDeclFmt enc =
      '<' :: '?' :: ("xml version=\"1.0\" encoding=\"".data ++ (enc ++ "\"?>".data)) := by
    rw [xmlDeclFmt, hlit]
    simp [List.cons_append, List.append_assoc]
  obtain ⟨hl, hg, hq, ha, hqt⟩ := encOk_not_mem henc
  refine ⟨?_, ?_, fun s hs => by rw [declOrKeep, if_pos hs]⟩
  · rw [hto]
    exact List.isPrefixOf_iff_prefix.2 (List.prefix_append _ _)
  · have hpp : ['<', '?'] <+: xmlDeclFmt enc := by
      rw [hdecl]
      exact ⟨_, rfl⟩
    have hmid : '<' ∉ ("xml version=\"1.0\" encoding=\"".data ++ (enc ++ "\"?>".data)) := by
      intro hm
      rcases List.mem_append.1 hm with hm | hm
      · exact absurd hm (by decide)
      rcases List.mem_append.1 hm with hm | hm
      · exact hl hm
      · exact absurd hm (by decide)
    have hd1 : countSub ['<', '?'] (xmlDeclFmt enc) = 1 := by
      rw [hdecl]
      have h0 : countSub ['<', '?'] (enc ++ ['"', '?', '>']) = 0 := by
        apply countSub_zero_of_not_mem
        intro hm
        rcases List.mem_append.1 hm with hm | hm
        · exact hl hm
        · exact absurd hm (by decide)
      have hh1 : (['<', '?'].isPrefixOf
          ('<' :: '?' :: ("xml version=\"1.0\" encoding=\"".data ++ (enc ++ "\"?>".data)))) =
          true := by
        simp [List.isPrefixOf_cons₂]
      have hh2 : (['<', '?'].isPrefixOf
          ('?' :: ("xml version=\"1.0\" encoding=\"".data ++ (enc ++ "\"?>".data)))) =
          false := pair_isPrefixOf_false₁ _ (by decide)
      simp [countSub, hh1, hh2, h0]
    have hdl : (xmlDeclFmt enc).getLast? = some '>' := by
      rw [xmlDeclFmt]
      simp
      rw [getLast?_cons_append_ne _ _ _ (by simp)]
      decide
    have hs0 := (ser_facts (mE e)).1 e le_rfl hw
    have hcount2 : countSub ['<', '?'] (to_xml e enc) = 1 := by
      rw [hto, countSub2_append, hd1, hs0.1,
        if_neg (no_cross_left (by rw [hdl]; simp))]
    have hub : countSub (xmlDeclFmt enc) (to_xml e enc) ≤ 1 := by
      have := countSub_le_of_prefix hpp (to_xml e enc)
      omega
    have hlb : 1 ≤ countSub (xmlDeclFmt enc) (to_xml e enc) := by
      apply countSub_pos_of_prefix
      · rw [hdecl]
        simp
      · rw [hto]
        exact List.isPrefixOf_iff_prefix.2 (List.prefix_append _ _)
    omega

theorem to_xml_decl_spec_witness :
    wfE sampleTree = true ∧ encOk "UTF-8".data = true ∧
    (((xmlDeclFmt "UTF-8".data).isPrefixOf (to_xml sampleTree "UTF-8".data)) = true
    ∧ countSub (xmlDeclFmt "UTF-8".data) (to_xml sampleTree "UTF-8".data) = 1
    ∧ (∀ s, ("<?xml".data.isPrefixOf s) = true → declOrKeep "UTF-8".data s = s)) := by
  have hwf : wfE sampleTree = true := by
    simp [sampleTree, wfE, wfL, wfName, wfAttrs]
    decide
  exact ⟨hwf, by decide, to_xml_decl_spec sampleTree "UTF-8".data hwf (by decide)⟩

/-! Round-trip lemmas: the modelled parser inverts the modelled serializer. -/

theorem serializeEle_split (e : Element) :
    serializeEle e = serCore e ++ escCdata e.tail := by
  obtain ⟨t, a, x, c, tl⟩ := e
  rw [serializeEle, serCore, Element.tail]

theorem serCore_cons (e : Element) :
    ∃ r, serCore e = '<' :: (e.tag ++ r) := by
  obtain ⟨t, a, x, c, tl⟩ := e
  rw [serCore, Element.tag]
  by_cases hxc : x.isEmpty && c.isEmpty
  · rw [if_pos hxc]
    exact ⟨_, rfl⟩
  · rw [if_neg hxc]
    exact ⟨_, rfl⟩

theorem serializeEle_head (e : Element) :
    ∃ r, serializeEle e = '<' :: r := by
  obtain ⟨r, hr⟩ := serCore_cons e
  refine ⟨e.tag ++ r ++ escCdata e.tail, ?_⟩
  rw [serializeEle_split, hr]
  simp [List.cons_append, List.append_assoc]

theorem takeWhile_all {p : Char → Bool} {l : List Char} (h : ∀ x ∈ l, p x = true) :
    l.takeWhile p = l := by
  induction l with
  | nil => rfl
  | cons c rest ih =>
    rw [List.takeWhile_cons_of_pos (h c (List.mem_cons_self _ _))]
    rw [ih (fun x hx => h x (List.mem_cons_of_mem _ hx))]

theorem dropPI_through {a : List Char} (r : List Char) (h : '?' ∉ a) :
    dropPI (a ++ '?' :: '>' :: r) = r := by
  induction a with
  | nil => rfl
  | cons c a ih =>
    have hc : c ≠ '?' := fun hh => h (hh ▸ List.mem_cons_self _ _)
    have hih := ih (fun hm => h (List.mem_cons_of_mem _ hm))
    rw [List.cons_append, dropPI.eq_def]
    split <;> simp_all

theorem ser_len : ∀ n : Nat,
    (∀ e : Element, mE e ≤ n → mE e < (serCore e).length)
    ∧ (∀ cs : List Element, mL cs ≤ n → mL cs ≤ (serList cs).length + 1) := by
  intro n
  induction n with
  | zero =>
    constructor
    · rintro ⟨t, a, x, c, tl⟩ hle
      rw [mE] at hle
      exact absurd hle (by omega)
    · intro cs hle
      cases cs with
      | nil =>
        rw [mL] at hle
        exact absurd hle (by omega)
      | cons e es =>
        rw [mL] at hle
        exact absurd hle (by omega)
  | succ n ih =>
    constructor
    · rintro ⟨t, a, x, c, tl⟩ hle
      rw [mE] at hle ⊢
      have hc : mL c ≤ n := by omega
      have hlc := ih.2 c hc
      rw [serCore]
      by_cases hxc : x.isEmpty && c.isEmpty
      · rw [if_pos hxc]
        have hcnil : c = [] := by
          simp only [Bool.and_eq_true, List.isEmpty_iff] at hxc
          exact hxc.2
        subst hcnil
        rw [mL]
        simp
        omega
      · rw [if_neg hxc]
        simp [List.length_append]
        omega
    · intro cs hle
      cases cs with
      | nil =>
        rw [mL]
        omega
      | cons e es =>
        rw [mL] at hle ⊢
        have hme : mE e ≤ n := by omega
        have hml : mL es ≤ n := by omega
        have h1 := ih.1 e hme
        have h2 := ih.2 es hml
        have hsl : serList (e :: es) = serializeEle e ++ serList es := by
          rw [serList]
        rw [hsl, serializeEle_split]
        simp [List.length_append]
        omega

theorem lookup_eq_of_perm {l₁ l₂ : List (List Char × List Char)}
    (h : List.Perm l₁ l₂) (hnd : (l₁.map Prod.fst).Nodup) (k : List Char) :
    List.lookup k l₁ = List.lookup k l₂ := by
  induction h with
  | nil => rfl
  | cons p hperm ih =>
    obtain ⟨p1, p2⟩ := p
    simp only [List.map_cons, List.nodup_cons] at hnd
    simp only [List.lookup_cons]
    cases hbe : (k == p1) with
    | true => rfl
    | false => exact ih hnd.2
  | swap p q l =>
    obtain ⟨p1, p2⟩ := p
    obtain ⟨q1, q2⟩ := q
    simp only [List.map_cons, List.nodup_cons, List.mem_cons, not_or] at hnd
    have hpq : p1 ≠ q1 := fun hh => hnd.1.1 hh.symm
    simp only [List.lookup_cons]
    cases hbe : (k == q1) with
    | true =>
      have hk : k = q1 := by simpa using hbe
      subst hk
      rw [beq_eq_false_iff_ne.2 (fun hh => hpq (hh.symm))]
    | false =>
      cases hbe2 : (k == p1) with
      | true => rfl
      | false => rfl
  | trans h₁ h₂ ih₁ ih₂ =>
    have hndm := (List.Perm.nodup_iff (h₁.map Prod.fst)).1 hnd
    exact (ih₁ hnd).trans (ih₂ hndm)

theorem canon_similar : ∀ n : Nat,
    (∀ e : Element, mE e ≤ n → wfE e = true → Similar (canon e) e)
    ∧ (∀ cs : List Element, mL cs ≤ n → wfL cs = true →
      List.Forall₂ Similar (canonList cs) cs) := by
  intro n
  induction n with
  | zero =>
    constructor
    · rintro ⟨t, a, x, c, tl⟩ hle _
      rw [mE] at hle
      exact absurd hle (by omega)
    · intro cs hle _
      cases cs with
      | nil =>
        rw [mL] at hle
        exact absurd hle (by omega)
      | cons e es =>
        rw [mL] at hle
        exact absurd hle (by omega)
  | succ n ih =>
    constructor
    · rintro ⟨t, a, x, c, tl⟩ hle hw
      rw [wfE] at hw
      simp only [Bool.and_eq_true] at hw
      obtain ⟨⟨hwt, hwa⟩, hwc⟩ := hw
      simp only [wfAttrs, Bool.and_eq_true] at hwa
      have hnd : (a.map Prod.fst).Nodup := by simpa using hwa.2
      have hc : mL c ≤ n := by
        rw [mE] at hle
        omega
      have hcanon : canon (Element.mk t a x c tl) =
          Element.mk t (sortAttrs a) x (canonList c) tl := by rw [canon]
      rw [hcanon]
      refine Similar.mk rfl ?_ rfl rfl (ih.2 c hc hwc)
      intro k
      exact lookup_eq_of_perm (sortAttrs_perm a)
        ((List.Perm.nodup_iff ((sortAttrs_perm a).map Prod.fst)).2 hnd) k
    · intro cs hle hwl
      cases cs with
      | nil =>
        have hnil : canonList [] = [] := by rw [canonList]
        rw [hnil]
        exact List.Forall₂.nil
      | cons e es =>
        rw [wfL] at hwl
        simp only [Bool.and_eq_true] at hwl
        rw [mL] at hle
        have hcl : canonList (e :: es) = canon e :: canonList es := by rw [canonList]
        rw [hcl]
        exact List.Forall₂.cons (ih.1 e (by omega) hwl.1) (ih.2 es (by omega) hwl.2)

theorem attrs_stop_scan (attrs : List (List Char × List Char)) (z : Char) (zs : List Char)
    (hz : isNameC z = false) :
    List.takeWhile isNameC (serAttrs attrs ++ (z :: zs)) = []
    ∧ List.dropWhile isNameC (serAttrs attrs ++ (z :: zs)) = serAttrs attrs ++ (z :: zs) := by
  cases attrs with
  | nil =>
    constructor
    · simp only [serAttrs, List.flatMap_nil, List.nil_append]
      rw [List.takeWhile_cons_of_neg (by simp [hz])]
    · simp only [serAttrs, List.flatMap_nil, List.nil_append]
      rw [List.dropWhile_cons_of_neg (by simp [hz])]
  | cons p l =>
    constructor
    · simp only [serAttrs, List.flatMap_cons, serAttr, List.cons_append]
      rw [List.takeWhile_cons_of_neg (by decide)]
    · simp only [serAttrs, List.flatMap_cons, serAttr, List.cons_append]
      rw [List.dropWhile_cons_of_neg (by decide)]

theorem content_scan (x : List Char) {tail2 : List Char}
    (htail : ∃ r, tail2 = '<' :: r) :
    List.takeWhile (fun c => !(c == '<')) (escCdata x ++ tail2) = escCdata x
    ∧ List.dropWhile (fun c => !(c == '<')) (escCdata x ++ tail2) = tail2 := by
  obtain ⟨r, rfl⟩ := htail
  have hall : ∀ ch ∈ escCdata x, (!(ch == '<')) = true := by
    intro ch hch
    have hne : ch ≠ '<' := fun hh => not_mem_escCdata_lt x (hh ▸ hch)
    simp [hne]
  constructor
  · rw [List.takeWhile_append_of_pos hall, List.takeWhile_cons_of_neg (by simp)]
    simp
  · rw [List.dropWhile_append_of_pos hall, List.dropWhile_cons_of_neg (by simp)]

theorem serList_append_head (cs : List Element) {rest : List Char}
    (hrest : ∃ r, rest = '<' :: r) : ∃ r, serList cs ++ rest = '<' :: r := by
  cases cs with
  | nil =>
    have hnil : serList [] = [] := by rw [serList]
    rw [hnil, List.nil_append]
    exact hrest
  | cons e es =>
    obtain ⟨r0, hr0⟩ := serializeEle_head e
    have hsl : serList (e :: es) = serializeEle e ++ serList es := by rw [serList]
    rw [hsl, hr0]
    exact ⟨r0 ++ serList es ++ rest, by simp [List.cons_append, List.append_assoc]⟩

theorem canonList_nil : canonList [] = [] := by rw [canonList]

theorem canonList_cons (e : Element) (es : List Element) :
    canonList (e :: es) = canon e :: canonList es := by rw [canonList]

theorem canon_withTail (e : Element) :
    ((canon e).withTail []).withTail e.tail = canon e := by
  obtain ⟨t, a, x, c, tl⟩ := e
  rw [canon]
  rfl

theorem parseChildren_cons_step (fuel : Nat) (th : Char) (r : List Char) (hth : th ≠ '/') :
    parseChildren (fuel + 1) ('<' :: th :: r) =
      match parseElement fuel ('<' :: th :: r) with
      | none => none
      | some (c, r1) =>
        match parseChildren fuel (r1.dropWhile (fun y => !(y == '<'))) with
        | none => none
        | some (cs, r3) =>
          some (c.withTail (unescape (r1.takeWhile (fun y => !(y == '<')))) :: cs, r3) := by
  rw [parseChildren.eq_def]
  split <;> simp_all

theorem parse_ok : ∀ fuel : Nat,
    (∀ (e : Element) (rest : List Char), wfE e = true → mE e ≤ fuel →
      parseElement fuel (serCore e ++ rest) = some ((canon e).withTail [], rest))
    ∧ (∀ (cs : List Element) (rest : List Char), wfL cs = true → mL cs ≤ fuel →
      (∃ r', rest = '<' :: '/' :: r') →
      parseChildren fuel (serList cs ++ rest) = some (canonList cs, rest)) := by
  intro fuel
  induction fuel with
  | zero =>
    constructor
    · rintro ⟨t, a, x, c, tl⟩ rest _ hle
      rw [mE] at hle
      exact absurd hle (by omega)
    · intro cs rest _ hle _
      cases cs with
      | nil =>
        rw [mL] at hle
        exact absurd hle (by omega)
      | cons e es =>
        rw [mL] at hle
        exact absurd hle (by omega)
  | succ fuel ih =>
    constructor
    · rintro ⟨t, a, x, c, tl⟩ rest hw hle
      rw [wfE] at hw
      simp only [Bool.and_eq_true] at hw
      obtain ⟨⟨hwt, hwa⟩, hwc⟩ := hw
      simp only [wfName, Bool.and_eq_true] at hwt
      have hallt : ∀ ch ∈ t, isNameC ch = true :=
        fun ch hch => List.all_eq_true.1 hwt.2 ch hch
      have htE : t.isEmpty = false := by simpa using hwt.1
      simp only [wfAttrs, Bool.and_eq_true] at hwa
      have hwan : ∀ p ∈ a, wfName p.1 = true :=
        fun p hp => List.all_eq_true.1 hwa.1 p hp
      have hwas := sortAttrs_wf hwan
      have hmlc : mL c ≤ fuel := by
        rw [mE] at hle
        omega
      rw [serCore]
      by_cases hxc : x.isEmpty && c.isEmpty
      · rw [if_pos hxc]
        obtain ⟨hxe, hce⟩ : x = [] ∧ c = [] := by
          simp only [Bool.and_eq_true, List.isEmpty_iff] at hxc
          exact hxc
        subst hxe
        subst hce
        simp only [List.cons_append, List.append_assoc, List.nil_append]
        have hscan := attrs_stop_scan (sortAttrs a) ' ' ('/' :: '>' :: rest) (by decide)
        have htake : List.takeWhile isNameC
            (t ++ (serAttrs (sortAttrs a) ++ (' ' :: '/' :: '>' :: rest))) = t := by
          rw [List.takeWhile_append_of_pos hallt, hscan.1, List.append_nil]
        have hdrop : List.dropWhile isNameC
            (t ++ (serAttrs (sortAttrs a) ++ (' ' :: '/' :: '>' :: rest))) =
            serAttrs (sortAttrs a) ++ (' ' :: '/' :: '>' :: rest) := by
          rw [List.dropWhile_append_of_pos hallt, hscan.2]
        have hpa : parseAttrs
            ((serAttrs (sortAttrs a) ++ (' ' :: '/' :: '>' :: rest)).length + 1)
            (serAttrs (sortAttrs a) ++ (' ' :: '/' :: '>' :: rest)) =
            some (sortAttrs a, ' ' :: '/' :: '>' :: rest) := by
          apply parseAttrs_ser _ _ _ ?_ hwas ?_
          · have h1 := serAttrs_len (sortAttrs a)
            simp only [List.length_append]
            omega
          · intro cc rr hh
            injection hh with h1 h2
            injection h2 with h3 h4
            rw [← h3]
            decide
        have hcan : (canon (Element.mk t a [] [] tl)).withTail [] =
            Element.mk t (sortAttrs a) [] [] [] := by
          rw [canon, canonList]
          rfl
        rw [parseElement.eq_def]
        simp only [htake, hdrop, hpa, htE, hcan, Bool.false_eq_true, if_false]
      · rw [if_neg hxc]
        simp only [List.cons_append, List.append_assoc, List.nil_append]
        have hscan := attrs_stop_scan (sortAttrs a) '>'
          (escCdata x ++ (serList c ++ ('<' :: '/' :: (t ++ '>' :: rest)))) (by decide)
        have htake : List.takeWhile isNameC
            (t ++ (serAttrs (sortAttrs a) ++
              ('>' :: (escCdata x ++ (serList c ++ ('<' :: '/' :: (t ++ '>' :: rest))))))) =
            t := by
          rw [List.takeWhile_append_of_pos hallt, hscan.1, List.append_nil]
        have hdrop : List.dropWhile isNameC
            (t ++ (serAttrs (sortAttrs a) ++
              ('>' :: (escCdata x ++ (serList c ++ ('<' :: '/' :: (t ++ '>' :: rest))))))) =
            serAttrs (sortAttrs a) ++
              ('>' :: (escCdata x ++ (serList c ++ ('<' :: '/' :: (t ++ '>' :: rest))))) := by
          rw [List.dropWhile_append_of_pos hallt, hscan.2]
        have hpa : parseAttrs
            ((serAttrs (sortAttrs a) ++
              ('>' :: (escCdata x ++ (serList c ++ ('<' :: '/' :: (t ++ '>' :: rest)))))).length + 1)
            (serAttrs (sortAttrs a) ++
              ('>' :: (escCdata x ++ (serList c ++ ('<' :: '/' :: (t ++ '>' :: rest)))))) =
            some (sortAttrs a,
              '>' :: (escCdata x ++ (serList c ++ ('<' :: '/' :: (t ++ '>' :: rest))))) := by
          apply parseAttrs_ser _ _ _ ?_ hwas ?_
          · have h1 := serAttrs_len (sortAttrs a)
            simp only [List.length_append]
            omega
          · intro cc rr hh
            injection hh with h1 h2
            exact absurd h1 (by decide)
        have hcontent := content_scan x
          (serList_append_head c ⟨'/' :: (t ++ '>' :: rest), rfl⟩)
        have hunesc : unescape (escCdata x) = x := unescape_escChar false x
        have hpc := ih.2 c ('<' :: '/' :: (t ++ '>' :: rest)) hwc hmlc
          ⟨t ++ '>' :: rest, rfl⟩
        have hcname : List.takeWhile isNameC (t ++ '>' :: rest) = t := by
          rw [List.takeWhile_append_of_pos hallt,
            List.takeWhile_cons_of_neg (by decide), List.append_nil]
        have hcdrop : List.dropWhile isNameC (t ++ '>' :: rest) = '>' :: rest := by
          rw [List.dropWhile_append_of_pos hallt,
            List.dropWhile_cons_of_neg (by decide)]
        have hws : List.dropWhile
            (fun c => c == ' ' || c == '\t' || c == '\n' || c == '\r') ('>' :: rest) =
            '>' :: rest := by
          rw [List.dropWhile_cons_of_neg (by decide)]
        have hcan : (canon (Element.mk t a x c tl)).withTail [] =
            Element.mk t (sortAttrs a) x (canonList c) [] := by
          rw [canon]
          rfl
        rw [parseElement.eq_def]
        simp only [htake, hdrop, hpa, htE, hcontent.1, hcontent.2, hunesc, hpc,
          hcname, hcdrop, hws, hcan, Bool.false_eq_true, if_false, if_pos]
    · intro cs rest hwl hle hstop
      obtain ⟨r', rfl⟩ := hstop
      cases cs with
      | nil =>
        have hnil : serList [] = [] := by rw [serList]
        rw [hnil, List.nil_append, parseChildren.eq_def, canonList_nil]
        rfl
      | cons e es =>
        rw [wfL] at hwl
        simp only [Bool.and_eq_true] at hwl
        rw [mL] at hle
        have hme : mE e ≤ fuel := by omega
        have hml : mL es ≤ fuel := by omega
        obtain ⟨te, ae, xe, ce, tle⟩ := e
        have hwt : wfName te = true := by
          have hh := hwl.1
          rw [wfE] at hh
          simp only [Bool.and_eq_true] at hh
          exact hh.1.1
        simp only [wfName, Bool.and_eq_true] at hwt
        have htne : te ≠ [] := by
          intro hh
          rw [hh] at hwt
          simpa using hwt.1
        obtain ⟨th, tt, hte⟩ := List.exists_cons_of_ne_nil htne
        have hth : th ≠ '/' := by
          intro hh
          have hmem := List.all_eq_true.1 hwt.2 th (hte ▸ List.mem_cons_self _ _)
          rw [hh] at hmem
          simp [isNameC] at hmem
        have hsl : serList (Element.mk te ae xe ce tle :: es) =
            serializeEle (Element.mk te ae xe ce tle) ++ serList es := by rw [serList]
        have hsplit : serializeEle (Element.mk te ae xe ce tle) =
            serCore (Element.mk te ae xe ce tle) ++ escCdata tle :=
          serializeEle_split _
        rw [hsl, hsplit]
        simp only [List.append_assoc]
        obtain ⟨r0, hr0⟩ := serCore_cons (Element.mk te ae xe ce tle)
        rw [Element.tag] at hr0
        have hshape : serCore (Element.mk te ae xe ce tle) ++
            (escCdata tle ++ (serList es ++ ('<' :: '/' :: r'))) =
            '<' :: th :: (tt ++ (r0 ++ (escCdata tle ++ (serList es ++ ('<' :: '/' :: r'))))) := by
          rw [hr0, hte]
          simp [List.cons_append, List.append_assoc]
        rw [hshape, parseChildren_cons_step fuel th _ hth, ← hshape]
        have hpe := ih.1 (Element.mk te ae xe ce tle)
          (escCdata tle ++ (serList es ++ ('<' :: '/' :: r'))) hwl.1 hme
        rw [hpe]
        have htail := content_scan tle (serList_append_head es ⟨'/' :: r', rfl⟩)
        have hunesc : unescape (escCdata tle) = tle := unescape_escChar false tle
        have hpc := ih.2 es ('<' :: '/' :: r') hwl.2 hml ⟨r', rfl⟩
        have hcw : (((canon (Element.mk te ae xe ce tle)).withTail []).withTail tle) =
            canon (Element.mk te ae xe ce tle) := canon_withTail _
        rw [canonList_cons]
        simp only [htail.1, htail.2, hunesc, hpc, hcw]

theorem to_xml_eq {e : Element} (enc : List Char) (hw : wfE e = true) :
    to_xml e enc = xmlDeclFmt enc ++ serializeEle e := by
  rw [to_xml, declOrKeep]
  have hser : ET_tostring e enc = serializeEle e := rfl
  rw [hser, ser_not_decl hw]
  simp

theorem skipDecl_to_xml {e : Element} {enc : List Char} (hw : wfE e = true)
    (henc : encOk enc = true) :
    skipDecl (to_xml e enc) = serializeEle e := by
  obtain ⟨hl, hg, hq, ha, hqt⟩ := encOk_not_mem henc
  rw [to_xml_eq enc hw]
  have hstep : ∀ r, skipDecl ('<' :: '?' :: r) = dropPI r := fun r => rfl
  have hform : xmlDeclFmt enc ++ serializeEle e =
      '<' :: '?' :: (("xml version=\"1.0\" encoding=\"".data ++ enc ++ ['"']) ++
        ('?' :: '>' :: serializeEle e)) := by
    rw [xmlDeclFmt]
    simp [List.append_assoc, List.cons_append]
  rw [hform, hstep, dropPI_through]
  intro hm
  rcases List.mem_append.1 hm with hm | hm
  · rcases List.mem_append.1 hm with hm | hm
    · exact absurd hm (by decide)
    · exact hq hm
  · exact absurd (List.mem_singleton.1 hm) (by decide)

theorem ET_fromstring_to_xml (e : Element) (enc : List Char)
    (hw : wfE e = true) (henc : encOk enc = true) :
    ET_fromstring (to_xml e enc) = .ok (canon e) := by
  have hskip := skipDecl_to_xml hw henc
  rw [ET_fromstring]
  simp only [hskip]
  have hfuel : mE e ≤ (serializeEle e).length + 1 := by
    have h1 := (ser_len (mE e)).1 e le_rfl
    have h2 : (serCore e).length ≤ (serializeEle e).length := by
      rw [serializeEle_split]
      simp
    omega
  have hpe : parseElement ((serCore e ++ escCdata e.tail).length + 1)
      (serCore e ++ escCdata e.tail) = some ((canon e).withTail [], escCdata e.tail) :=
    (parse_ok _).1 e (escCdata e.tail) hw
      (by rw [← serializeEle_split]; exact hfuel)
  rw [serializeEle_split e]
  simp only [hpe]
  have halltail : ∀ ch ∈ escCdata e.tail, (fun c => !(c == '<')) ch = true := by
    intro ch hch
    have hne : ch ≠ '<' := fun hh => not_mem_escCdata_lt e.tail (hh ▸ hch)
    simp [hne]
  have hu : unescape (escCdata e.tail) = e.tail := unescape_escChar false e.tail
  rw [takeWhile_all halltail, hu, canon_withTail]

/-- Claim C1: for every well-formed element and encoding name, parsing the
serialised output (`to_ele` after `to_xml`) succeeds and reconstructs an
element with the same tag, the same attribute mapping, the same texts, and a
pairwise-similar child sequence: the round trip through serialisation is the
identity up to the key order of attribute lists. -/
theorem roundtrip_spec (e : Element) (enc : List Char)
    (hw : wfE e = true) (henc : encOk enc = true) :
    ∃ e2, to_ele (.str (to_xml e enc)) = .ok e2 ∧ Similar e2 e := by
  refine ⟨canon e, ?_, (canon_similar (mE e)).1 e le_rfl hw⟩
  have h : to_ele (.str (to_xml e enc)) = ET_fromstring (to_xml e enc) := rfl
  rw [h, ET_fromstring_to_xml e enc hw henc]

/-- Witness for C1 on a concrete two-level element with attributes, text and
a child tail. -/
theorem roundtrip_spec_witness :
    wfE sampleTree = true ∧ encOk "UTF-8".data = true ∧
    (∃ e2, to_ele (.str (to_xml sampleTree "UTF-8".data)) = .ok e2
      ∧ Similar e2 sampleTree) := by
  have hwf : wfE sampleTree = true := by
    simp [sampleTree, wfE, wfL, wfName, wfAttrs]
    decide
  exact ⟨hwf, by decide, roundtrip_spec sampleTree "UTF-8".data hwf (by decide)⟩
